import Mathlib

/-!
# Thread Anchor — verification of the content-script core

Shallow embedding of the Thread Anchor extension's content scripts
(`selectors.js`, `ancestors.js`, `activeComment.js`, `stickyUI.js`).

Every function verified here only ever walks *upward* through
`parentElement`, so a page element is modelled by its own node data
(tag, classes, id, attributes) together with the list of node data of
its strict ancestors, nearest first.  Element identity (JS reference
equality, `===`, `Set` membership) is modelled by decidable structural
equality on these values; distinct DOM nodes are told apart by their
data and position.  The WeakMap memoization layers in the source
(`parentCache`, `chainCache`, `depthCache`, `idCache`, `metaCache`)
cache pure functions of the element and are elided from the pure
definitions; the chain cache's aliasing behaviour (`.slice()` copies)
is modelled explicitly by a small array store further below.
-/

/-- The data a single DOM element carries: `tagName` (uppercase, as the
DOM reports it), its class list, its `id` property, and its
attributes. -/
structure NodeData where
  tag : String
  classes : List String
  idAttr : String
  attrs : List (String × String)
deriving DecidableEq, Repr

namespace NodeData

/-- `el.classList.contains(s)` -/
def hasClass (d : NodeData) (s : String) : Bool :=
  d.classes.contains s

/-- `el.getAttribute(s)` (null when absent). -/
def attrGet (d : NodeData) (s : String) : Option String :=
  (d.attrs.find? (fun p => p.1 = s)).map Prod.snd

end NodeData

/-- A DOM element: its own data plus the data of its strict ancestors,
nearest ancestor first (`up = []` means the element sits at the top of
the document). -/
structure Elem where
  data : NodeData
  up : List NodeData
deriving DecidableEq, Repr

namespace Elem

/-- `el.parentElement` (null at the top). -/
def parent : Elem → Option Elem
  | ⟨_, []⟩ => none
  | ⟨_, d :: rest⟩ => some ⟨d, rest⟩

def tag (e : Elem) : String := e.data.tag

def idAttr (e : Elem) : String := e.data.idAttr

def hasClass (e : Elem) (s : String) : Bool := e.data.hasClass s

def attrGet (e : Elem) (s : String) : Option String := e.data.attrGet s

end Elem

/-- JS `x || y` on strings: `y` when `x` is empty (falsy), else `x`. -/
def jsOrStr (x y : String) : String :=
  if x = "" then y else x

/-- `s.toLowerCase()` (character-wise lower-casing, as used on ASCII
tag names). -/
def jsToLower (s : String) : String :=
  String.mk (s.toList.map Char.toLower)

/-- The two supported page layouts (`detectRedditVersion()` result):
`old` = old Reddit (LayoutA), `new` = new/shreddit Reddit (LayoutB).
Detection itself inspects the live page and is kept abstract; all
results below hold for both layouts. -/
inductive Layout where
  | old
  | new
deriving DecidableEq, Repr

/-! ## selectors.js -/

namespace Selectors

/-- `OldReddit.isCommentThing`: classList contains both `thing` and
`comment`. -/
def isCommentA (d : NodeData) : Bool :=
  d.hasClass "thing" && d.hasClass "comment"

/-- `NewReddit.isCommentThing`: tag is `shreddit-comment` (lower-cased,
as the source compares `el.tagName.toLowerCase()`) or
`data-testid="comment"`. -/
def isCommentB (d : NodeData) : Bool :=
  jsToLower d.tag = "shreddit-comment" || d.attrGet "data-testid" = some "comment"

/-- `Selectors.isCommentThing`, dispatched on the detected layout. -/
def isCommentThing : Layout → Elem → Bool
  | .old, el => isCommentA el.data
  | .new, el => isCommentB el.data

/-- The stop condition of the `OldReddit.getIndentDepth` walk:
`.siteTable.nestedlisting`, or an id starting with `siteTable`. -/
def stopA (d : NodeData) : Bool :=
  (d.hasClass "siteTable" && d.hasClass "nestedlisting")
    || d.idAttr.startsWith "siteTable"

/-- The counting loop of `OldReddit.getIndentDepth`: walk the ancestor
path, stop at `stopA`, count `.child` containers crossed. -/
def indentGoA : List NodeData → Nat
  | [] => 0
  | d :: rest =>
    if stopA d then 0
    else (if d.hasClass "child" then 1 else 0) + indentGoA rest

/-- `parseInt(s, 10)`: skip leading whitespace, optional sign, then the
longest decimal-digit prefix; NaN (`none`) when no digit follows. -/
def jsParseInt (s : String) : Option Int :=
  let ds : List Char → Option Nat := fun cs =>
    let d := cs.takeWhile Char.isDigit
    if d.isEmpty then none
    else some (d.foldl (fun a c => a * 10 + (c.toNat - 48)) 0)
  let cs := s.toList.dropWhile (fun c => c = ' ' || c = '\t' || c = '\n' || c = '\r')
  match cs with
  | '-' :: rest => (ds rest).map (fun n => -(n : Int))
  | '+' :: rest => (ds rest).map (fun n => (n : Int))
  | _ => (ds cs).map (fun n => (n : Int))

/-- The fallback counting loop of `NewReddit.getIndentDepth`: count
`shreddit-comment` elements on the ancestor path, stopping after a
`shreddit-comment-tree` (the count test precedes the stop test, exactly
as in the source loop). -/
def countGoB : List NodeData → Nat
  | [] => 0
  | d :: rest =>
    (if jsToLower d.tag = "shreddit-comment" then 1 else 0)
      + (if jsToLower d.tag = "shreddit-comment-tree" then 0 else countGoB rest)

/-- `el.getAttribute('depth') || '0'`: absent and empty both fall back
to `'0'`. -/
def depthAttrOr0 (d : NodeData) : String :=
  match d.attrGet "depth" with
  | none => "0"
  | some s => jsOrStr s "0"

/-- `Selectors.getIndentDepth`, dispatched; the JS number result is
modelled as `Option Int` with `none` for NaN.  −1 for non-comments;
LayoutA counts `.child` containers; LayoutB uses a truthy (nonzero,
non-NaN) parsed `depth` attribute, counts nested `shreddit-comment`
ancestors when the attribute parses to 0, and returns NaN when the
attribute is present but unparseable: `parseInt` yields NaN, the falsy
NaN enters the counting loop, and every `depth++` leaves it NaN. -/
def getIndentDepth : Layout → Elem → Option Int
  | .old, el =>
    if isCommentA el.data then some (indentGoA el.up : Int) else some (-1)
  | .new, el =>
    if isCommentB el.data then
      match jsParseInt (depthAttrOr0 el.data) with
      | some d => if d ≠ 0 then some d else some (countGoB el.up : Int)
      | none => none
    else some (-1)

/-- The search loop of `OldReddit.getParentThing` over the ancestor
path: the first `.child` container whose own parent is a classified
comment yields that comment; a `siteTable` class aborts the search. -/
def goPA : List NodeData → Option Elem
  | [] => none
  | [d] =>
    -- topmost position: a `.child` here has a null parent, so only the
    -- `siteTable` stop applies, and both outcomes are null
    if d.hasClass "siteTable" then none else none
  | d :: q :: rest =>
    if d.hasClass "child" && isCommentA q then some ⟨q, rest⟩
    else if d.hasClass "siteTable" then none
    else goPA (q :: rest)

/-- The search loop of `NewReddit.getParentThing`: the nearest ancestor
that is itself a classified comment; a `shreddit-comment-tree` aborts. -/
def goPB : List NodeData → Option Elem
  | [] => none
  | d :: rest =>
    if isCommentB d then some ⟨d, rest⟩
    else if jsToLower d.tag = "shreddit-comment-tree" then none
    else goPB rest

/-- `Selectors.getParentThing`, dispatched; null for non-comments. -/
def getParentThing : Layout → Elem → Option Elem
  | .old, el => if isCommentA el.data then goPA el.up else none
  | .new, el => if isCommentB el.data then goPB el.up else none

end Selectors

/-! ## ancestors.js -/

namespace Ancestors

open Selectors

/-- The `while (current) { chain.unshift(current); current = getParentCached(current) }`
loop of `computeAncestors`, started at a comment element
(`getParentCached` memoizes the pure `Selectors.getParentThing`).  The
loop is rendered with a structural step budget; `el.up.length` steps
always suffice, because every `getParentThing` step lands strictly
higher on the finite ancestor path (`walkF_eq_walk` below proves the
budget irrelevant and `walk_eq_none` / `walk_eq_some` recover the
loop's recurrence, so `walk` is exactly the loop's result). -/
def walkF (l : Layout) : Nat → Elem → List Elem
  | 0, el => [el]
  | fuel + 1, el =>
    match Selectors.getParentThing l el with
    | none => [el]
    | some p => walkF l fuel p ++ [el]

/-- The ancestor walk: root-to-node order, the element itself last. -/
def walk (l : Layout) (el : Elem) : List Elem :=
  walkF l el.up.length el

/-- `Ancestors.computeAncestors`: empty for non-comments, otherwise the
root-to-node chain produced by the upward walk. -/
def computeAncestors (l : Layout) (el : Elem) : List Elem :=
  if Selectors.isCommentThing l el then walk l el else []

/-- `Ancestors.getDepth`: `Math.max(0, chain.length - 1)`. -/
def getDepth (l : Layout) (el : Elem) : Int :=
  max 0 ((computeAncestors l el).length - 1)

/-- `Ancestors.getTopLevelAncestor`: first chain entry, or null. -/
def getTopLevelAncestor (l : Layout) (el : Elem) : Option Elem :=
  (computeAncestors l el).head?

/-- `Ancestors.shareTopLevel`: `top1 !== null && top1 === top2`. -/
def shareTopLevel (l : Layout) (a b : Elem) : Bool :=
  match getTopLevelAncestor l a with
  | none => false
  | some t1 => decide (getTopLevelAncestor l b = some t1)

/-- `Ancestors.findCommonAncestor`: put chain1 in a membership set and
scan chain2 from its tail toward its head for the first member. -/
def findCommonAncestor (l : Layout) (a b : Elem) : Option Elem :=
  let chain1 := computeAncestors l a
  let chain2 := computeAncestors l b
  chain2.reverse.find? (fun x => chain1.contains x)

/-! Null / non-element inputs.  The selector classifiers begin with
`if (!el || !(el instanceof Element)) return false;`; an input that is
null or not an element is modelled as `none`. -/

/-- `Selectors.isCommentThing` on a possibly-null input. -/
def isCommentThingN (l : Layout) : Option Elem → Bool
  | none => false
  | some e => Selectors.isCommentThing l e

/-- `computeAncestors` on a possibly-null input (the classifier guard
rejects it before any dereference). -/
def computeAncestorsN (l : Layout) : Option Elem → List Elem
  | none => []
  | some e => computeAncestors l e

/-- `getDepth` on a possibly-null input. -/
def getDepthN (l : Layout) (o : Option Elem) : Int :=
  max 0 ((computeAncestorsN l o).length - 1)

/-- `getTopLevelAncestor` on a possibly-null input. -/
def getTopLevelAncestorN (l : Layout) (o : Option Elem) : Option Elem :=
  (computeAncestorsN l o).head?

end Ancestors

/-! ## Comment metadata: excerpt extraction (`getCommentMeta`)

Both `OldReddit.getCommentMeta` and `NewReddit.getCommentMeta` compute

    excerpt = bodyEl.textContent.trim().slice(0, 150);
    if (bodyEl.textContent.length > 150) excerpt += '...';

JS strings are sequences of code units, modelled as `List Char`. -/

namespace Selectors

/-- Whitespace as stripped by `String.prototype.trim`. -/
def jsWhitespace (c : Char) : Bool :=
  c = ' ' || c = '\t' || c = '\n' || c = '\r' || c = '\x0b' || c = '\x0c'

/-- `s.trim()`. -/
def jsTrim (s : List Char) : List Char :=
  ((s.dropWhile jsWhitespace).reverse.dropWhile jsWhitespace).reverse

/-- The excerpt computed from a comment body's `textContent`: the first
150 characters of the trimmed text, with `'...'` appended whenever the
*untrimmed* text is longer than 150 characters. -/
def excerptOf (body : List Char) : List Char :=
  let e := (jsTrim body).take 150
  if body.length > 150 then e ++ "...".toList else e

/-- The excerpt field of `getCommentMeta`: `''` when no body element is
found, otherwise `excerptOf` of the body text. -/
def commentMetaExcerpt (bodyText : Option (List Char)) : List Char :=
  match bodyText with
  | none => []
  | some b => excerptOf b

/-! ## Comment ids (`getCommentId`) -/

/-- First truthy value in a JS `a || b || …` chain over nullable
strings (null and `''` are both falsy). -/
def firstTruthy : List (Option String) → Option String
  | [] => none
  | x :: rest =>
    match x with
    | some s => if s = "" then firstTruthy rest else some s
    | none => firstTruthy rest

/-- The regex step `permalink.match(/\/comment\/([a-z0-9]+)/i)`:
leftmost occurrence of `/comment/` (case-insensitive) followed by at
least one ASCII alphanumeric; returns the captured run. -/
def permalinkCommentId (s : String) : Option String :=
  go s.toList
where
  isAlnum (c : Char) : Bool := c.isDigit || (('a' ≤ c.toLower) && (c.toLower ≤ 'z'))
  go : List Char → Option String
  | [] => none
  | c :: rest =>
    if ((c :: rest).take 9).map Char.toLower = "/comment/".toList then
      let run := ((c :: rest).drop 9).takeWhile isAlnum
      if run.isEmpty then go rest else some (String.mk run)
    else go rest

/-- `OldReddit.getCommentId`: `data-fullname` attribute, else the `id`
property, else null. -/
def getCommentIdA (el : Elem) : Option String :=
  if !isCommentA el.data then none
  else firstTruthy [el.attrGet "data-fullname", some el.idAttr]

/-- `NewReddit.getCommentId`: `thingid`, else `data-fullname`, else the
`id` attribute, else a `t1_…` id extracted from the `permalink`
attribute, else null.  (A falsy `''` result and null are conflated:
the only consumer joins ids into a string, where both print as `''`.) -/
def getCommentIdB (el : Elem) : Option String :=
  if !isCommentB el.data then none
  else
    match firstTruthy [el.attrGet "thingid", el.attrGet "data-fullname", el.attrGet "id"] with
    | some s => some s
    | none =>
      match el.attrGet "permalink" with
      | none => none
      | some pl => (permalinkCommentId pl).map (fun s => "t1_" ++ s)

/-- `Selectors.getCommentId`, dispatched. -/
def getCommentId : Layout → Elem → Option String
  | .old, el => getCommentIdA el
  | .new, el => getCommentIdB el

end Selectors

/-! ## activeComment.js -/

namespace ActiveComment

/-- The walk of `findCommentFromTarget`, over the current node's data
and its ancestor path. -/
def fcGo (l : Layout) : NodeData → List NodeData → Option Elem
  | d, up =>
    if d.tag = "BODY" then none
    else if Selectors.isCommentThing l ⟨d, up⟩ then some ⟨d, up⟩
    else
      match up with
      | [] => none
      | q :: rest => fcGo l q rest

/-- `findCommentFromTarget`: walk up from the click target (stopping at
`document.body`, modelled as the unique `BODY` element) looking for a
classified comment. -/
def findCommentFromTarget (l : Layout) (t : Elem) : Option Elem :=
  fcGo l t.data t.up

/-- The walk of `closest`, over the current node's data and its
ancestor path. -/
def closestGo (p : NodeData → Bool) : NodeData → List NodeData → Bool
  | d, up =>
    p d ||
      (match up with
       | [] => false
       | q :: rest => closestGo p q rest)

/-- `target.closest(sel)` as a Boolean: does the target or one of its
ancestors satisfy the selector predicate? -/
def hasClosest (p : NodeData → Bool) (t : Elem) : Bool :=
  closestGo p t.data t.up

/-- Selector `.md, [slot="comment"], [data-testid="comment"]` (a link
inside the comment body). -/
def inBodySel (d : NodeData) : Bool :=
  d.hasClass "md" || d.attrGet "slot" = some "comment"
    || d.attrGet "data-testid" = some "comment"

/-- Selector `.arrow, [data-click-id="upvote"], [data-click-id="downvote"]`
(vote controls). -/
def voteSel (d : NodeData) : Bool :=
  d.hasClass "arrow" || d.attrGet "data-click-id" = some "upvote"
    || d.attrGet "data-click-id" = some "downvote"

/-- Selector `.expand, [data-testid="comment-collapse-toggle"]`
(expand/collapse controls). -/
def expandSel (d : NodeData) : Bool :=
  d.hasClass "expand" || d.attrGet "data-testid" = some "comment-collapse-toggle"

/-- `isValidClickTarget`: excludes links outside the comment body,
buttons, form inputs, vote arrows and expand/collapse controls.  (The
`comment` argument is unused in the source as well.) -/
def isValidClickTarget (target : Elem) (_comment : Elem) : Bool :=
  if target.tag = "A" && !hasClosest inBodySel target then false
  else if target.tag = "BUTTON" then false
  else if target.tag = "INPUT" || target.tag = "TEXTAREA" then false
  else if hasClosest voteSel target then false
  else if hasClosest expandSel target then false
  else true

/-- The Anchor Tracker's module state: `isActive` and the currently
anchored comment (`currentAnchored`). -/
structure Tracker where
  isActive : Bool
  anchored : Option Elem
deriving DecidableEq, Repr

/-- `setAnchored(comment)`, run with the registered callback
(`onChangeCallback`, possibly null).  The callback may throw, modelled
by `Except`; a thrown error is caught and logged (`console.error`).
The result is the new `currentAnchored` value, the list of callback
invocations (with their argument), and the list of logged errors — the
function itself always returns, modelling that no exception escapes. -/
def setAnchoredCall (f : Option Elem → Except String Unit)
    (next : Option Elem) :
    Option Elem × List (Option Elem) × List String :=
  match f next with
  | .ok _ => (next, [next], [])
  | .error e => (next, [next], [e])

/-- `setAnchored(comment)` proper: no-op when the value is unchanged,
otherwise store the new value and notify the callback when present. -/
def setAnchoredRun (cb : Option (Option Elem → Except String Unit))
    (cur next : Option Elem) :
    Option Elem × List (Option Elem) × List String :=
  if next = cur then (cur, [], [])
  else
    match cb with
    | none => (next, [], [])
    | some f => setAnchoredCall f next

/-- `handleCommentClick(event)` for a click whose `event.target` is
`target`: resolve the comment, validate the target, then toggle or
switch the anchor via `setAnchored`.  Returns the new tracker state,
the callback invocations and the logged callback errors. -/
def handleCommentClick (l : Layout) (cb : Option (Option Elem → Except String Unit))
    (st : Tracker) (target : Elem) :
    Tracker × List (Option Elem) × List String :=
  if !st.isActive then (st, [], [])
  else
    match findCommentFromTarget l target with
    | none => (st, [], [])
    | some comment =>
      if !isValidClickTarget target comment then (st, [], [])
      else
        let r :=
          if some comment = st.anchored
          then setAnchoredRun cb st.anchored none
          else setAnchoredRun cb st.anchored (some comment)
        ({ st with anchored := r.1 }, r.2)

end ActiveComment

/-! ## stickyUI.js -/

namespace StickyUI

/-- The original-post metadata produced by `Selectors.getOriginalPost`. -/
structure OpMeta where
  title : String
  author : String
  score : String
  subreddit : String
  url : String
  postId : String
deriving DecidableEq, Repr

/-- A row of the sticky header: the fixed origin row (`createOPRow`) or
an ancestor row (`createRow`, carrying the comment it was built from,
its 1-based displayed depth and the compact flag). -/
inductive Row where
  | op (meta : OpMeta) (compact : Bool)
  | comment (el : Elem) (depth : Nat) (compact : Bool)
deriving DecidableEq, Repr

/-- The renderer's module state: `isActive` (initialized, container
present), the row DOM of `#ta-sticky-container` (`rows`), its
`visible` class, `currentChainIds`, `currentActiveComment`, and the set
of page elements currently carrying the `.ta-active-icon` anchor marker
(`marked`; a list, so that duplicated markers would be observable).
Theme and geometry state are not modelled. -/
structure RenderSt where
  isActive : Bool
  rows : List Row
  visible : Bool
  chainKeys : List String
  curActive : Option Elem
  marked : List Elem
deriving DecidableEq, Repr

/-- The renderer state right after `init` (container created empty and
hidden, no chain ids, no active comment, no marker). -/
def initialRenderSt : RenderSt :=
  { isActive := true, rows := [], visible := false, chainKeys := []
    curActive := none, marked := [] }

/-- The at-most-one-marker invariant: the marked elements are free of
duplicates and every marked element is the current active comment — so
no page element ever carries two `.ta-active-icon` markers and at most
one element carries one. -/
def markerInv (st : RenderSt) : Prop :=
  st.marked.Nodup ∧ ∀ e ∈ st.marked, st.curActive = some e

/-- The content fingerprint of `render`:
`` `${opId}|${commentIds}|${compact}` `` where `opId` is
`opMeta.postId || 'op'` (empty without opMeta) and `commentIds` joins
the ids of the first `depth` chain entries with `','` (null ids join as
empty). -/
def renderKey (l : Layout) (chain : List Elem) (depth : Nat) (compact : Bool)
    (opMeta : Option OpMeta) : String :=
  let displayChain := chain.take depth
  let opId := match opMeta with
    | some m => jsOrStr m.postId "op"
    | none => ""
  let ids := String.intercalate ","
    (displayChain.map (fun c => (Selectors.getCommentId l c).getD ""))
  opId ++ "|" ++ ids ++ "|" ++ (if compact then "true" else "false")

/-- `updateActiveHighlight(newActiveComment)`: remove the anchor marker
from the previous active comment when it changed, then mark the new
active comment (only if it is still in the document, and never adding a
second marker to an element that already carries one).  `inDoc` is the
`document.contains` test. -/
def updateActiveHighlight (inDoc : Elem → Bool) (st : RenderSt)
    (newActive : Option Elem) : RenderSt :=
  let m1 := match st.curActive with
    | some c => if some c ≠ newActive then st.marked.erase c else st.marked
    | none => st.marked
  let m2 := match newActive with
    | some n => if inDoc n then (if n ∈ m1 then m1 else m1 ++ [n]) else m1
    | none => m1
  { st with marked := m2, curActive := newActive }

/-- `hide(activeComment)`: drop the `visible` class, clear the row DOM
and the fingerprint, then update the active marker (null by default,
which removes the marker). -/
def hide (inDoc : Elem → Bool) (st : RenderSt) (activeComment : Option Elem) : RenderSt :=
  if !st.isActive then st
  else
    updateActiveHighlight inDoc
      { st with visible := false, rows := [], chainKeys := [] } activeComment

/-- `render(chain, depth, compact, activeComment, opMeta)`.  The chain
holds the ancestors only (the orchestrator strips the active comment).
If the fingerprint matches `currentChainIds.join('')` and the header is
visible, only the active highlight is updated; otherwise the row DOM is
rebuilt: the origin row (when opMeta exists) followed by one row per
displayed ancestor at depths 1, 2, …; with neither opMeta nor ancestor
rows the header is hidden (which also clears the marker, as `hide()` is
called with no argument). -/
def render (l : Layout) (inDoc : Elem → Bool) (st : RenderSt) (chain : List Elem)
    (depth : Nat) (compact : Bool) (activeComment : Option Elem)
    (opMeta : Option OpMeta) : RenderSt :=
  if !st.isActive then st
  else
    let displayChain := chain.take depth
    let newChainKey := renderKey l chain depth compact opMeta
    if newChainKey = String.join st.chainKeys && st.visible then
      updateActiveHighlight inDoc st activeComment
    else
      let opRows : List Row := match opMeta with
        | some m => [Row.op m compact]
        | none => []
      let rows := opRows ++ displayChain.enum.map (fun p => Row.comment p.2 (p.1 + 1) compact)
      let st1 := { st with chainKeys := [newChainKey], rows := rows }
      if opMeta = none && displayChain.isEmpty then
        hide inDoc st1 none
      else
        let st2 := updateActiveHighlight inDoc st1 activeComment
        { st2 with visible := true }

end StickyUI

/-! ## The chain cache's aliasing behaviour (`ancestors.js`)

`computeAncestors` stores the built chain array in `chainCache` and
returns `chain.slice()` — a fresh array — on every call, so callers can
mutate their result without affecting the cache or other callers.  JS
array objects and reference aliasing are modelled by a store of arrays
addressed by handles: `alloc` is array creation (`[]` literals, array
building, `.slice()`), `writeIdx` is an element assignment through one
reference. -/

namespace Ancestors

/-- A heap of array objects; a handle is an index into it. -/
structure ArrStore where
  arrs : List (List Elem)
deriving Repr

/-- Creating a fresh array object with the given contents. -/
def alloc (s : ArrStore) (a : List Elem) : ArrStore × Nat :=
  ({ arrs := s.arrs ++ [a] }, s.arrs.length)

/-- Dereferencing a handle. -/
def readArr (s : ArrStore) (h : Nat) : List Elem :=
  s.arrs.getD h []

/-- `arr[i] = v` through the reference `h`. -/
def writeIdx (s : ArrStore) (h i : Nat) (v : Elem) : ArrStore :=
  { arrs := s.arrs.set h ((s.arrs.getD h []).set i v) }

/-- The `chainCache` WeakMap: comment element → handle of the cached
chain array. -/
abbrev ChainCache := List (Elem × Nat)

/-- `computeAncestors` with its heap effects: non-comments get a fresh
`[]`; a cache hit returns a fresh copy (`.slice()`) of the cached
array; a miss builds the chain, stores that array object in the cache
and returns a fresh copy of it. -/
def computeAncestorsSt (l : Layout) (s : ArrStore) (cache : ChainCache)
    (el : Elem) : ArrStore × ChainCache × Nat :=
  if !Selectors.isCommentThing l el then
    let r := alloc s []
    (r.1, cache, r.2)
  else
    match List.lookup el cache with
    | some h0 =>
      let r := alloc s (readArr s h0)
      (r.1, cache, r.2)
    | none =>
      let chain := walk l el
      let r0 := alloc s chain
      let cache1 := (el, r0.2) :: cache
      let r1 := alloc r0.1 (readArr r0.1 r0.2)
      (r1.1, cache1, r1.2)

end Ancestors

/-! ## Termination of the ancestor walk (`computeAncestors` loop)

The source walks `current = getParentThing(current)` with no cycle
detection; termination relies on each step moving strictly toward a
bounded root.  To state this as the source faces it — over an arbitrary,
possibly cyclic parent relation — the walk is rendered with an explicit
step budget over an abstract node type: `walkSteps parent fuel x acc`
performs the loop body at most `fuel` times and reports the chain, or
`none` when the budget runs out (the loop would still be running). -/

/-- The `while (current) { chain.unshift(current); current = parent(current) }`
loop over an arbitrary parent relation on abstract node ids, with a
step budget. -/
def walkSteps (parent : Nat → Option Nat) : Nat → Nat → List Nat → Option (List Nat)
  | 0, _, _ => none
  | fuel + 1, x, acc =>
    let acc1 := x :: acc
    match parent x with
    | none => some acc1
    | some p => walkSteps parent fuel p acc1

/-! ## Well-formed layout structure

`getIndentDepth` and `getParentThing` infer depth and parent
independently from positional cues; they agree on pages whose markup
matches the layout the selectors were written for.  `chainOkA` /
`chainOkB` make that precise as a decidable condition on the ancestor
path: every nesting container's parent is itself a classified comment,
classified comments only occur as proper nesting steps, the walk ends
at a boundary that stops both inferences, and (LayoutB) any `depth`
attribute on a chain comment is absent, empty, zero, or equal to the
counted nesting (an unparseable attribute makes the depth NaN). -/

namespace Selectors

/-- Well-formed ancestor path under LayoutA (old Reddit). -/
def chainOkA : List NodeData → Bool
  | [] => true
  | [d] =>
    if d.hasClass "child" then false
    else if stopA d then d.hasClass "siteTable"
    else if d.hasClass "siteTable" then false
    else true
  | d :: q :: r2 =>
    if d.hasClass "child" then
      !stopA d && isCommentA q && !q.hasClass "child" && !stopA q
        && !q.hasClass "siteTable" && chainOkA r2
    else if stopA d then d.hasClass "siteTable"
    else if d.hasClass "siteTable" then false
    else chainOkA (q :: r2)

/-- Under LayoutB, a `depth` attribute is acceptable when it is absent
or empty (both default to `'0'`), parses to the falsy `0`, or agrees
with the structural count.  A present-but-unparseable attribute is NOT
acceptable: `getIndentDepth` then returns NaN, never the count. -/
def attrOkB (d : NodeData) (upCount : Nat) : Bool :=
  match jsParseInt (depthAttrOr0 d) with
  | none => false
  | some v => v = 0 || v = (upCount : Int)

/-- Well-formed ancestor path under LayoutB (shreddit). -/
def chainOkB : List NodeData → Bool
  | [] => true
  | d :: rest =>
    if jsToLower d.tag = "shreddit-comment" then
      attrOkB d (countGoB rest) && chainOkB rest
    else if jsToLower d.tag = "shreddit-comment-tree" then
      !(d.attrGet "data-testid" = some "comment")
    else
      !isCommentB d && chainOkB rest

/-- A node is well formed for the active layout when it is a classified
comment, its ancestor path is well formed, and (LayoutB) its own
`depth` attribute agrees with the counted nesting. -/
def wellFormed : Layout → Elem → Bool
  | .old, el => isCommentA el.data && chainOkA el.up
  | .new, el => isCommentB el.data && chainOkB el.up && attrOkB el.data (countGoB el.up)

end Selectors

/-! ## Concrete page fragments

Small concrete elements used to evaluate the definitions on real
inputs: an old-Reddit nested comment pair, a shreddit comment with a
contradictory `depth` attribute, and click targets inside a comment. -/

namespace Fixtures

/-- Old Reddit root container `.siteTable.nestedlisting`. -/
def rootA : NodeData := ⟨"DIV", ["siteTable", "nestedlisting"], "", []⟩

/-- An old Reddit top-level comment `.thing.comment`. -/
def topA : NodeData := ⟨"DIV", ["thing", "comment"], "", [("data-fullname", "t1_top")]⟩

/-- An old Reddit `.child` reply container. -/
def childA : NodeData := ⟨"DIV", ["child"], "", []⟩

/-- An old Reddit nested comment `.thing.comment`. -/
def kidA : NodeData := ⟨"DIV", ["thing", "comment"], "", [("data-fullname", "t1_kid")]⟩

/-- The top-level comment element (directly under the root container). -/
def eTop : Elem := ⟨topA, [rootA]⟩

/-- The nested comment element (inside the top comment's `.child`). -/
def eKid : Elem := ⟨kidA, [childA, topA, rootA]⟩

/-- A shreddit comment tree root. -/
def sctB : NodeData := ⟨"SHREDDIT-COMMENT-TREE", [], "", []⟩

/-- A shreddit comment sitting directly under the tree root but
carrying a contradictory `depth="5"` attribute. -/
def eDepth5 : Elem := ⟨⟨"SHREDDIT-COMMENT", [], "", [("depth", "5")]⟩, [sctB]⟩

/-- The page body. -/
def bodyN : NodeData := ⟨"BODY", [], "", []⟩

/-- An old Reddit comment directly under the body (click fixtures). -/
def cmtX : Elem := ⟨topA, [bodyN]⟩

/-- A second comment under the body. -/
def cmtY : Elem := ⟨kidA, [bodyN]⟩

/-- A plain text span inside `cmtX` (a valid click target). -/
def spanInX : Elem := ⟨⟨"SPAN", [], "", []⟩, [topA, bodyN]⟩

/-- A plain text span inside `cmtY`. -/
def spanInY : Elem := ⟨⟨"SPAN", [], "", []⟩, [kidA, bodyN]⟩

/-- A vote arrow `.arrow` inside `cmtX`. -/
def voteInX : Elem := ⟨⟨"DIV", ["arrow"], "", []⟩, [topA, bodyN]⟩

/-- A 151-character comment body: a single leading space followed by
150 `'a'`s. -/
def bodyC2 : List Char := ' ' :: List.replicate 150 'a'

/-- Original-post metadata for render fixtures. -/
def opM : StickyUI.OpMeta := ⟨"Title", "author", "42", "r/sub", "https://x", "t3_post"⟩

/-- Three plain elements used as an ancestor chain for the renderer
(`render` never classifies them itself). -/
def rc0 : Elem := ⟨⟨"DIV", ["thing", "comment"], "", [("data-fullname", "t1_a")]⟩, []⟩

def rc1 : Elem := ⟨⟨"DIV", ["thing", "comment"], "", [("data-fullname", "t1_b")]⟩, []⟩

def rc2 : Elem := ⟨⟨"DIV", ["thing", "comment"], "", [("data-fullname", "t1_c")]⟩, []⟩

/-- A parent map for the termination model: `n+1 ↦ n`, `0 ↦ root`. -/
def parentW : Nat → Option Nat :=
  fun x => if x = 0 then none else some (x - 1)

end Fixtures

/-! # Theorems -/

namespace Selectors

theorem goPA_up_lt : ∀ (up : List NodeData) (p : Elem), goPA up = some p →
    p.up.length < up.length := by
  intro up
  induction up with
  | nil => intro p h; simp [goPA] at h
  | cons d rest ih =>
    intro p h
    cases rest with
    | nil => simp [goPA] at h
    | cons q r2 =>
      rw [goPA] at h
      split at h
      · cases h; simp only [Elem.up, List.length_cons]; omega
      · split at h
        · exact absurd h (by simp)
        · have := ih p h
          simp only [List.length_cons] at *
          omega

theorem goPB_up_lt : ∀ (up : List NodeData) (p : Elem), goPB up = some p →
    p.up.length < up.length := by
  intro up
  induction up with
  | nil => intro p h; simp [goPB] at h
  | cons d rest ih =>
    intro p h
    rw [goPB] at h
    split at h
    · cases h; simp only [Elem.up, List.length_cons]; omega
    · split at h
      · exact absurd h (by simp)
      · have := ih p h
        simp only [List.length_cons] at *
        omega

theorem getParentThing_up_lt (l : Layout) (el p : Elem)
    (h : getParentThing l el = some p) : p.up.length < el.up.length := by
  cases l with
  | old =>
    simp only [getParentThing] at h
    by_cases hc : isCommentA el.data
    · rw [if_pos hc] at h
      exact goPA_up_lt el.up p h
    · rw [if_neg hc] at h; exact absurd h (by simp)
  | new =>
    simp only [getParentThing] at h
    by_cases hc : isCommentB el.data
    · rw [if_pos hc] at h
      exact goPB_up_lt el.up p h
    · rw [if_neg hc] at h; exact absurd h (by simp)

end Selectors

namespace Ancestors

open Selectors

theorem getParentThing_up_ne_nil {l : Layout} {el p : Elem}
    (h : getParentThing l el = some p) : el.up ≠ [] := by
  intro hnil
  cases l <;> simp [getParentThing, hnil, goPA, goPB] at h

theorem walkF_eq_walk : ∀ (f : Nat) (l : Layout) (el : Elem), el.up.length ≤ f →
    walkF l f el = walk l el := by
  intro f
  induction f using Nat.strong_induction_on with
  | _ f ih =>
    intro l el h
    cases f with
    | zero =>
      have h0 : el.up.length = 0 := Nat.le_zero.mp h
      unfold walk
      rw [h0]
    | succ g =>
      cases hp : getParentThing l el with
      | none =>
        unfold walk
        cases hn : el.up.length <;> simp [walkF, hp]
      | some p =>
        have hne : el.up ≠ [] := getParentThing_up_ne_nil hp
        obtain ⟨k, hk⟩ : ∃ k, el.up.length = k + 1 := by
          cases hu : el.up with
          | nil => exact absurd hu hne
          | cons a b => exact ⟨b.length, by simp⟩
        have hplt : p.up.length < el.up.length := getParentThing_up_lt l el p hp
        have h1 : walkF l (g + 1) el = walkF l g p ++ [el] := by simp [walkF, hp]
        have h2 : walk l el = walkF l k p ++ [el] := by
          unfold walk
          rw [hk]
          simp [walkF, hp]
        have e1 : walkF l g p = walk l p := ih g (by omega) l p (by omega)
        have e2 : walkF l k p = walk l p := ih k (by omega) l p (by omega)
        rw [h1, h2, e1, e2]

theorem walk_eq_none {l : Layout} {el : Elem}
    (h : Selectors.getParentThing l el = none) : walk l el = [el] := by
  unfold walk
  cases hn : el.up.length <;> simp [walkF, h]

theorem walk_eq_some {l : Layout} {el p : Elem}
    (h : Selectors.getParentThing l el = some p) : walk l el = walk l p ++ [el] := by
  have hne : el.up ≠ [] := getParentThing_up_ne_nil h
  obtain ⟨k, hk⟩ : ∃ k, el.up.length = k + 1 := by
    cases hu : el.up with
    | nil => exact absurd hu hne
    | cons a b => exact ⟨b.length, by simp⟩
  have hplt : p.up.length < el.up.length := getParentThing_up_lt l el p h
  unfold walk
  rw [hk]
  simp only [walkF, h]
  rw [walkF_eq_walk k l p (by omega)]
  rfl

theorem walk_getLast (l : Layout) (el : Elem) :
    (walk l el).getLast? = some el := by
  cases h : Selectors.getParentThing l el with
  | none => rw [walk_eq_none h]; rfl
  | some p => rw [walk_eq_some h, List.getLast?_append]; rfl

theorem walk_ne_nil (l : Layout) (el : Elem) : walk l el ≠ [] := by
  cases h : Selectors.getParentThing l el with
  | none => rw [walk_eq_none h]; simp
  | some p => rw [walk_eq_some h]; simp


end Ancestors

namespace Selectors

theorem goPA_spec : ∀ (up : List NodeData), chainOkA up = true →
    (goPA up = none ∧ indentGoA up = 0) ∨
    (∃ p, goPA up = some p ∧ isCommentA p.data = true ∧ chainOkA p.up = true ∧
      indentGoA up = indentGoA p.up + 1) := by
  intro up
  induction up with
  | nil => intro _; left; exact ⟨rfl, rfl⟩
  | cons d rest ih =>
    intro hok
    cases rest with
    | nil =>
      by_cases hchild : d.hasClass "child"
      · rw [chainOkA, if_pos hchild] at hok
        exact absurd hok (by simp)
      · left
        refine ⟨by simp [goPA], ?_⟩
        by_cases hstop : stopA d
        · rw [indentGoA, if_pos hstop]
        · rw [indentGoA, if_neg hstop, if_neg (by simp [hchild])]
          rfl
    | cons q r2 =>
      by_cases hchild : d.hasClass "child"
      · rw [chainOkA, if_pos hchild] at hok
        simp only [Bool.and_eq_true, Bool.not_eq_true'] at hok
        obtain ⟨⟨⟨⟨⟨hsd, hq⟩, hqc⟩, hqs⟩, hqsite⟩, hr2⟩ := hok
        right
        refine ⟨⟨q, r2⟩, ?_, hq, hr2, ?_⟩
        · rw [goPA, if_pos (by simp [hchild, hq])]
        · show indentGoA (d :: q :: r2) = indentGoA r2 + 1
          rw [indentGoA, if_neg (by simp [hsd]), if_pos hchild,
            indentGoA, if_neg (by simp [hqs]), if_neg (by simp [hqc])]
          omega
      · by_cases hstop : stopA d
        · have hsite : d.hasClass "siteTable" = true := by
            rw [chainOkA, if_neg hchild, if_pos hstop] at hok; exact hok
          left
          constructor
          · rw [goPA, if_neg (by simp [hchild]), if_pos hsite]
          · rw [indentGoA, if_pos hstop]
        · by_cases hsite : d.hasClass "siteTable"
          · rw [chainOkA, if_neg hchild, if_neg hstop, if_pos hsite] at hok
            simp at hok
          · have hrest : chainOkA (q :: r2) = true := by
              rw [chainOkA, if_neg hchild, if_neg hstop, if_neg hsite] at hok; exact hok
            have hind : indentGoA (d :: q :: r2) = indentGoA (q :: r2) := by
              rw [indentGoA, if_neg hstop, if_neg (by simp [hchild])]
              omega
            have hgo : goPA (d :: q :: r2) = goPA (q :: r2) := by
              rw [goPA, if_neg (by simp [hchild]), if_neg hsite]
            rcases ih hrest with ⟨h1, h2⟩ | ⟨p, h1, h2, h3, h4⟩
            · left; exact ⟨by rw [hgo, h1], by rw [hind, h2]⟩
            · right; exact ⟨p, by rw [hgo, h1], h2, h3, by rw [hind, h4]⟩

theorem goPB_spec : ∀ (up : List NodeData), chainOkB up = true →
    (goPB up = none ∧ countGoB up = 0) ∨
    (∃ p, goPB up = some p ∧ isCommentB p.data = true ∧ chainOkB p.up = true ∧
      attrOkB p.data (countGoB p.up) = true ∧ countGoB up = countGoB p.up + 1) := by
  intro up
  induction up with
  | nil => intro _; left; exact ⟨rfl, rfl⟩
  | cons d rest ih =>
    intro hok
    by_cases hsc : jsToLower d.tag = "shreddit-comment"
    · rw [chainOkB, if_pos hsc] at hok
      simp only [Bool.and_eq_true] at hok
      obtain ⟨hattr, hrest⟩ := hok
      right
      refine ⟨⟨d, rest⟩, ?_, ?_, hrest, hattr, ?_⟩
      · rw [goPB, if_pos (by simp [isCommentB, hsc])]
      · simp [isCommentB, hsc]
      · show countGoB (d :: rest) = countGoB rest + 1
        rw [countGoB, if_pos hsc, if_neg (by rw [hsc]; decide)]
        omega
    · by_cases hsct : jsToLower d.tag = "shreddit-comment-tree"
      · have hnc : isCommentB d = false := by
          rw [chainOkB, if_neg hsc, if_pos hsct] at hok
          simp only [Bool.not_eq_true', decide_eq_false_iff_not] at hok
          simp [isCommentB, hsc, hok]
        left
        constructor
        · rw [goPB, if_neg (by simp [hnc]), if_pos hsct]
        · rw [countGoB, if_neg hsc, if_pos hsct]
      · rw [chainOkB, if_neg hsc, if_neg hsct] at hok
        simp only [Bool.and_eq_true, Bool.not_eq_true'] at hok
        obtain ⟨hnc, hrest⟩ := hok
        have hgo : goPB (d :: rest) = goPB rest := by
          rw [goPB, if_neg (by simp [hnc]), if_neg hsct]
        have hcnt : countGoB (d :: rest) = countGoB rest := by
          rw [countGoB, if_neg hsc, if_neg hsct]
          omega
        rcases ih hrest with ⟨h1, h2⟩ | ⟨p, h1, h2, h3, h4, h5⟩
        · left; exact ⟨by rw [hgo, h1], by rw [hcnt, h2]⟩
        · right; exact ⟨p, by rw [hgo, h1], h2, h3, h4, by rw [hcnt, h5]⟩

end Selectors

namespace Ancestors

open Selectors

theorem walk_length_old : ∀ (n : Nat) (el : Elem), el.up.length ≤ n →
    isCommentA el.data = true → chainOkA el.up = true →
    (walk .old el).length = indentGoA el.up + 1 := by
  intro n
  induction n with
  | zero =>
    intro el hlen hc hok
    have hup : el.up = [] := by
      cases hu : el.up with
      | nil => rfl
      | cons a b => rw [hu] at hlen; simp at hlen
    have hpar : getParentThing .old el = none := by
      simp [getParentThing, hc, hup, goPA]
    rw [walk_eq_none hpar, hup]
    rfl
  | succ n ih =>
    intro el hlen hc hok
    rcases goPA_spec el.up hok with ⟨h1, h2⟩ | ⟨p, h1, h2, h3, h4⟩
    · have hpar : getParentThing .old el = none := by
        simp [getParentThing, hc, h1]
      rw [walk_eq_none hpar, h2]
      rfl
    · have hpar : getParentThing .old el = some p := by
        simp [getParentThing, hc, h1]
      have hlt : p.up.length < el.up.length := goPA_up_lt el.up p h1
      have hplen : p.up.length ≤ n := by omega
      rw [walk_eq_some hpar, List.length_append, ih p hplen h2 h3, h4]
      simp

theorem walk_length_new : ∀ (n : Nat) (el : Elem), el.up.length ≤ n →
    isCommentB el.data = true → chainOkB el.up = true →
    (walk .new el).length = countGoB el.up + 1 := by
  intro n
  induction n with
  | zero =>
    intro el hlen hc hok
    have hup : el.up = [] := by
      cases hu : el.up with
      | nil => rfl
      | cons a b => rw [hu] at hlen; simp at hlen
    have hpar : getParentThing .new el = none := by
      simp [getParentThing, hc, hup, goPB]
    rw [walk_eq_none hpar, hup]
    rfl
  | succ n ih =>
    intro el hlen hc hok
    rcases goPB_spec el.up hok with ⟨h1, h2⟩ | ⟨p, h1, h2, h3, h4, h5⟩
    · have hpar : getParentThing .new el = none := by
        simp [getParentThing, hc, h1]
      rw [walk_eq_none hpar, h2]
      rfl
    · have hpar : getParentThing .new el = some p := by
        simp [getParentThing, hc, h1]
      have hlt : p.up.length < el.up.length := goPB_up_lt el.up p h1
      have hplen : p.up.length ≤ n := by omega
      rw [walk_eq_some hpar, List.length_append, ih p hplen h2 h3, h5]
      simp

theorem getIndentDepth_new_eq_count (el : Elem) (hc : isCommentB el.data = true)
    (ha : attrOkB el.data (countGoB el.up) = true) :
    getIndentDepth .new el = some (countGoB el.up : Int) := by
  simp only [getIndentDepth, hc, if_true]
  unfold attrOkB at ha
  cases hparse : jsParseInt (depthAttrOr0 el.data) with
  | none => rw [hparse] at ha; cases ha
  | some v =>
    rw [hparse] at ha
    simp only [Bool.or_eq_true, decide_eq_true_eq] at ha
    rcases ha with h0 | heq
    · simp [h0]
    · by_cases hz : v = 0
      · simp [hz]
      · simp only [ne_eq, hz, not_false_iff, if_true, heq]
        rw [ite_self]

end Ancestors

/-! ## C1 — chain shape and depth agreement -/

/-- **C1** (amended): for every element classified as a comment under the
active layout, `computeAncestors` returns a non-empty chain whose last
element is the node itself; and provided the structure around the node is
well formed for the layout (`Selectors.wellFormed`: nesting containers
wrap classified comments, the walk ends at a boundary stopping both
inferences, and any LayoutB `depth` attribute is absent, empty, zero, or
equal to the counted nesting — a present-but-unparseable attribute makes
the program's depth NaN and is excluded), the indent depth is an actual
number `d` and the chain's length equals `d + 1`. -/
theorem c1_chain_length_matches_depth (l : Layout) (el : Elem)
    (hc : Selectors.isCommentThing l el = true) :
    Ancestors.computeAncestors l el ≠ [] ∧
    (Ancestors.computeAncestors l el).getLast? = some el ∧
    (Selectors.wellFormed l el = true →
      ∃ d : Int, Selectors.getIndentDepth l el = some d ∧
        ((Ancestors.computeAncestors l el).length : Int) = d + 1) := by
  have hca : Ancestors.computeAncestors l el = Ancestors.walk l el := by
    unfold Ancestors.computeAncestors
    rw [if_pos hc]
  refine ⟨by rw [hca]; exact Ancestors.walk_ne_nil l el,
          by rw [hca]; exact Ancestors.walk_getLast l el, ?_⟩
  intro hwf
  rw [hca]
  cases l with
  | old =>
    have hc' : Selectors.isCommentA el.data = true := by
      simpa [Selectors.isCommentThing] using hc
    have hok : Selectors.chainOkA el.up = true := by
      simp only [Selectors.wellFormed, Bool.and_eq_true] at hwf
      exact hwf.2
    refine ⟨(Selectors.indentGoA el.up : Int),
      by simp [Selectors.getIndentDepth, hc'], ?_⟩
    rw [Ancestors.walk_length_old el.up.length el le_rfl hc' hok]
    push_cast
    ring
  | new =>
    have hc' : Selectors.isCommentB el.data = true := by
      simpa [Selectors.isCommentThing] using hc
    simp only [Selectors.wellFormed, Bool.and_eq_true] at hwf
    obtain ⟨⟨-, hok⟩, hattr⟩ := hwf
    refine ⟨(Selectors.countGoB el.up : Int),
      Ancestors.getIndentDepth_new_eq_count el hc' hattr, ?_⟩
    rw [Ancestors.walk_length_new el.up.length el le_rfl hc' hok]
    push_cast
    ring

/-- **C1**, counterexample to the claim as stated: a classified shreddit
comment sitting directly under the comment-tree root but carrying
`depth="5"` — its chain has length 1 while the indent-depth computation
reports 5, so `chain.length = depthOf + 1` fails. -/
theorem c1_counterexample :
    Selectors.isCommentThing .new Fixtures.eDepth5 = true ∧
    Ancestors.computeAncestors .new Fixtures.eDepth5 = [Fixtures.eDepth5] ∧
    Selectors.getIndentDepth .new Fixtures.eDepth5 = some 5 ∧
    ((Ancestors.computeAncestors .new Fixtures.eDepth5).length : Int) ≠ 5 + 1 := by
  refine ⟨by decide, by decide, by decide, ?_⟩
  have h1 : Ancestors.computeAncestors .new Fixtures.eDepth5 = [Fixtures.eDepth5] := by decide
  rw [h1]
  decide

/-- **C1**, witness: the nested old-Reddit comment `eKid` is classified,
well formed, and the amended equality evaluates on it. -/
theorem c1_witness :
    Ancestors.computeAncestors .old Fixtures.eKid ≠ [] ∧
    (Ancestors.computeAncestors .old Fixtures.eKid).getLast? = some Fixtures.eKid ∧
    ∃ d : Int, Selectors.getIndentDepth .old Fixtures.eKid = some d ∧
      ((Ancestors.computeAncestors .old Fixtures.eKid).length : Int) = d + 1 := by
  have h := c1_chain_length_matches_depth .old Fixtures.eKid (by decide)
  exact ⟨h.1, h.2.1, h.2.2 (by decide)⟩

/-! ## C2 — excerpt extraction -/

/-- **C2** (amended): for a comment body whose text carries no leading or
trailing whitespace (so that trimming leaves it unchanged), the excerpt
is the body's first 150 characters, with the `'...'` marker appended
exactly when the body is longer than 150 characters; shorter bodies are
returned unmodified. -/
theorem c2_excerpt_truncation (b : List Char) (h : Selectors.jsTrim b = b) :
    Selectors.excerptOf b =
      if b.length > 150 then b.take 150 ++ "...".toList else b := by
  unfold Selectors.excerptOf
  rw [h]
  by_cases hl : b.length > 150
  · simp [hl]
  · simp only [hl, if_false]
    exact List.take_of_length_le (by omega)

set_option maxRecDepth 8000 in
/-- **C2**, counterexample to the claim as stated: a 151-character body
consisting of a space followed by 150 `'a'`s.  Its trimmed text has only
150 characters — nothing is cut — yet the marker is appended; the result
is neither the untruncated body, nor the trimmed body, nor the body's
150-character prefix with the marker. -/
theorem c2_counterexample :
    (Selectors.jsTrim Fixtures.bodyC2).length ≤ 150 ∧
    Selectors.excerptOf Fixtures.bodyC2 = List.replicate 150 'a' ++ "...".toList ∧
    Selectors.excerptOf Fixtures.bodyC2 ≠ Fixtures.bodyC2 ∧
    Selectors.excerptOf Fixtures.bodyC2 ≠ Fixtures.bodyC2.take 150 ++ "...".toList ∧
    Selectors.excerptOf Fixtures.bodyC2 ≠ Selectors.jsTrim Fixtures.bodyC2 := by
  decide

set_option maxRecDepth 8000 in
/-- **C2**, witness: a 200-character body yields the 150-character prefix
plus the marker; a 100-character body is returned unmodified. -/
theorem c2_witness :
    Selectors.excerptOf (List.replicate 200 'x') =
      List.replicate 150 'x' ++ "...".toList ∧
    Selectors.excerptOf (List.replicate 100 'x') = List.replicate 100 'x' := by
  constructor
  · rw [c2_excerpt_truncation (List.replicate 200 'x') (by decide)]
    decide
  · rw [c2_excerpt_truncation (List.replicate 100 'x') (by decide)]
    decide

/-! ## C10 — non-comment inputs degrade to empty results -/

/-- **C10**: for any input not classified as a comment under the active
layout — including null and non-element values (`none`) — the chain is
empty, the depth is 0 and the top-level ancestor is null; all three
functions are total, so none can throw. -/
theorem c10_nonclassified_inputs (l : Layout) (o : Option Elem)
    (h : Ancestors.isCommentThingN l o = false) :
    Ancestors.computeAncestorsN l o = [] ∧
    Ancestors.getDepthN l o = 0 ∧
    Ancestors.getTopLevelAncestorN l o = none := by
  have hempty : Ancestors.computeAncestorsN l o = [] := by
    cases o with
    | none => rfl
    | some e =>
      have hc : Selectors.isCommentThing l e = false := by
        simpa [Ancestors.isCommentThingN] using h
      show Ancestors.computeAncestors l e = []
      unfold Ancestors.computeAncestors
      rw [hc]
      rfl
  refine ⟨hempty, ?_, ?_⟩
  · unfold Ancestors.getDepthN
    rw [hempty]
    decide
  · unfold Ancestors.getTopLevelAncestorN
    rw [hempty]
    rfl

/-- **C10**, witness: evaluated at a null input and at a non-comment
element (a bare `BODY`). -/
theorem c10_witness :
    (Ancestors.computeAncestorsN .old none = [] ∧
      Ancestors.getDepthN .old none = 0 ∧
      Ancestors.getTopLevelAncestorN .old none = none) ∧
    (Ancestors.computeAncestorsN .new (some ⟨Fixtures.bodyN, []⟩) = [] ∧
      Ancestors.getDepthN .new (some ⟨Fixtures.bodyN, []⟩) = 0 ∧
      Ancestors.getTopLevelAncestorN .new (some ⟨Fixtures.bodyN, []⟩) = none) :=
  ⟨c10_nonclassified_inputs .old none (by decide),
   c10_nonclassified_inputs .new (some ⟨Fixtures.bodyN, []⟩) (by decide)⟩

/-! ## C3 — Anchor Tracker transitions -/

namespace ActiveComment

theorem setAnchoredRun_fst (cb : Option (Option Elem → Except String Unit))
    (cur next : Option Elem) (hne : next ≠ cur) :
    (setAnchoredRun cb cur next).1 = next := by
  unfold setAnchoredRun
  rw [if_neg hne]
  cases cb with
  | none => rfl
  | some f =>
    show (setAnchoredCall f next).1 = next
    unfold setAnchoredCall
    cases f next <;> rfl

end ActiveComment

/-- **C3**: with the tracker active, a click resolving to comment `X`
that is a valid target anchors `X` from Idle, toggles back to Idle when
`X` is already anchored, and switches to `X` when a different comment
`Y` is anchored; and a click landing on a vote control (or any other
excluded interactive control, which makes `isValidClickTarget` false)
causes no state transition at all. -/
theorem c3_tracker_transitions (l : Layout)
    (cb : Option (Option Elem → Except String Unit))
    (st : ActiveComment.Tracker) (target X : Elem)
    (hact : st.isActive = true)
    (hfind : ActiveComment.findCommentFromTarget l target = some X) :
    (ActiveComment.isValidClickTarget target X = true →
      ((st.anchored = none →
        (ActiveComment.handleCommentClick l cb st target).1.anchored = some X) ∧
       (st.anchored = some X →
        (ActiveComment.handleCommentClick l cb st target).1.anchored = none) ∧
       (∀ Y, st.anchored = some Y → Y ≠ X →
        (ActiveComment.handleCommentClick l cb st target).1.anchored = some X))) ∧
    (ActiveComment.hasClosest ActiveComment.voteSel target = true →
      (ActiveComment.handleCommentClick l cb st target).1 = st) := by
  constructor
  · intro hvalid
    refine ⟨?_, ?_, ?_⟩
    · intro hanc
      unfold ActiveComment.handleCommentClick
      rw [hact, hfind]
      simp only [Bool.not_true, Bool.false_eq_true, if_false, hvalid]
      rw [if_neg (by simp [hanc])]
      exact ActiveComment.setAnchoredRun_fst cb st.anchored (some X) (by simp [hanc])
    · intro hanc
      unfold ActiveComment.handleCommentClick
      rw [hact, hfind]
      simp only [Bool.not_true, Bool.false_eq_true, if_false, hvalid]
      rw [if_pos (by rw [hanc])]
      exact ActiveComment.setAnchoredRun_fst cb st.anchored none (by simp [hanc])
    · intro Y hanc hne
      unfold ActiveComment.handleCommentClick
      rw [hact, hfind]
      simp only [Bool.not_true, Bool.false_eq_true, if_false, hvalid]
      rw [if_neg (by simp [hanc]; exact fun h => hne h.symm)]
      exact ActiveComment.setAnchoredRun_fst cb st.anchored (some X)
        (by simp [hanc]; exact fun h => hne h.symm)
  · intro hvote
    have hinvalid : ActiveComment.isValidClickTarget target X = false := by
      unfold ActiveComment.isValidClickTarget
      rw [hvote]
      split
      · rfl
      · split
        · rfl
        · split
          · rfl
          · rfl
    unfold ActiveComment.handleCommentClick
    rw [hact, hfind]
    simp [hinvalid]

/-- **C3**, witness: from Idle, a valid click inside `cmtX` anchors it;
clicking it again idles; from Anchored(cmtY), it switches; a vote-arrow
click from Idle stays Idle. -/
theorem c3_witness :
    (ActiveComment.handleCommentClick .old none
      ⟨true, none⟩ Fixtures.spanInX).1.anchored = some Fixtures.cmtX ∧
    (ActiveComment.handleCommentClick .old none
      ⟨true, some Fixtures.cmtX⟩ Fixtures.spanInX).1.anchored = none ∧
    (ActiveComment.handleCommentClick .old none
      ⟨true, some Fixtures.cmtY⟩ Fixtures.spanInX).1.anchored = some Fixtures.cmtX ∧
    (ActiveComment.handleCommentClick .old none
      ⟨true, none⟩ Fixtures.voteInX).1 = ⟨true, none⟩ := by
  have h1 := c3_tracker_transitions .old none ⟨true, none⟩
    Fixtures.spanInX Fixtures.cmtX rfl (by decide)
  have h2 := c3_tracker_transitions .old none ⟨true, some Fixtures.cmtX⟩
    Fixtures.spanInX Fixtures.cmtX rfl (by decide)
  have h3 := c3_tracker_transitions .old none ⟨true, some Fixtures.cmtY⟩
    Fixtures.spanInX Fixtures.cmtX rfl (by decide)
  have h4 := c3_tracker_transitions .old none ⟨true, none⟩
    Fixtures.voteInX Fixtures.cmtX rfl (by decide)
  exact ⟨(h1.1 (by decide)).1 rfl,
         (h2.1 (by decide)).2.1 rfl,
         (h3.1 (by decide)).2.2 Fixtures.cmtY rfl (by decide),
         h4.2 (by decide)⟩

/-! ## C8 — callback invocation and exception safety -/

/-- **C8**: a state transition (new value differs from the current one)
invokes the registered callback exactly once with the new anchored
value; if the callback throws, the error is caught and logged and the
function still returns normally with the new anchored value retained;
a successful callback logs nothing. -/
theorem c8_callback_safety (f : Option Elem → Except String Unit)
    (cur next : Option Elem) (hne : next ≠ cur) :
    (ActiveComment.setAnchoredRun (some f) cur next).1 = next ∧
    (ActiveComment.setAnchoredRun (some f) cur next).2.1 = [next] ∧
    (∀ e, f next = .error e →
      (ActiveComment.setAnchoredRun (some f) cur next).2.2 = [e]) ∧
    (f next = .ok () →
      (ActiveComment.setAnchoredRun (some f) cur next).2.2 = []) := by
  have hrun : ActiveComment.setAnchoredRun (some f) cur next =
      ActiveComment.setAnchoredCall f next := by
    unfold ActiveComment.setAnchoredRun
    rw [if_neg hne]
  rw [hrun]
  unfold ActiveComment.setAnchoredCall
  cases hf : f next with
  | ok u =>
    refine ⟨rfl, rfl, ?_, fun _ => rfl⟩
    intro e he
    cases he
  | error e' =>
    refine ⟨rfl, rfl, ?_, ?_⟩
    · intro e he
      cases he
      rfl
    · intro he
      cases he

/-- **C8**, witness: a throwing callback on the Idle→Anchored transition
is caught, logged, and the new anchored value is kept. -/
theorem c8_witness :
    (ActiveComment.setAnchoredRun (some (fun _ => Except.error "boom"))
      none (some Fixtures.cmtX)).1 = some Fixtures.cmtX ∧
    (ActiveComment.setAnchoredRun (some (fun _ => Except.error "boom"))
      none (some Fixtures.cmtX)).2.1 = [some Fixtures.cmtX] ∧
    (ActiveComment.setAnchoredRun (some (fun _ => Except.error "boom"))
      none (some Fixtures.cmtX)).2.2 = ["boom"] := by
  have h := c8_callback_safety (fun _ => Except.error "boom")
    none (some Fixtures.cmtX) (by simp)
  exact ⟨h.1, h.2.1, h.2.2.1 "boom" rfl⟩

/-! ## C4 — common ancestors -/

namespace Ancestors

open Selectors

theorem goPA_some_isComment : ∀ (up : List NodeData) (p : Elem),
    goPA up = some p → isCommentA p.data = true := by
  intro up
  induction up with
  | nil => intro p h; simp [goPA] at h
  | cons d rest ih =>
    intro p h
    cases rest with
    | nil => simp [goPA] at h
    | cons q r2 =>
      rw [goPA] at h
      split at h
      · cases h
        rename_i hcond
        exact (Bool.and_eq_true ..).mp hcond |>.2
      · split at h
        · exact absurd h (by simp)
        · exact ih p h

theorem goPB_some_isComment : ∀ (up : List NodeData) (p : Elem),
    goPB up = some p → isCommentB p.data = true := by
  intro up
  induction up with
  | nil => intro p h; simp [goPB] at h
  | cons d rest ih =>
    intro p h
    rw [goPB] at h
    split at h
    · cases h
      assumption
    · split at h
      · exact absurd h (by simp)
      · exact ih p h

theorem getParentThing_some_isComment (l : Layout) (el p : Elem)
    (h : Selectors.getParentThing l el = some p) :
    Selectors.isCommentThing l p = true := by
  cases l with
  | old =>
    simp only [Selectors.getParentThing] at h
    by_cases hc : isCommentA el.data
    · rw [if_pos hc] at h
      exact goPA_some_isComment el.up p h
    · rw [if_neg hc] at h; exact absurd h (by simp)
  | new =>
    simp only [Selectors.getParentThing] at h
    by_cases hc : isCommentB el.data
    · rw [if_pos hc] at h
      exact goPB_some_isComment el.up p h
    · rw [if_neg hc] at h; exact absurd h (by simp)

theorem walk_mem_isComment : ∀ (n : Nat) (l : Layout) (el x : Elem),
    el.up.length ≤ n → Selectors.isCommentThing l el = true →
    x ∈ walk l el → Selectors.isCommentThing l x = true := by
  intro n
  induction n with
  | zero =>
    intro l el x hlen hc hx
    have hup : el.up = [] := by
      cases hu : el.up with
      | nil => rfl
      | cons a b => rw [hu] at hlen; simp at hlen
    have hpar : Selectors.getParentThing l el = none := by
      cases l <;> simp [Selectors.getParentThing, hup, Selectors.goPA, Selectors.goPB]
    rw [walk_eq_none hpar] at hx
    simp at hx
    rwa [hx]
  | succ n ih =>
    intro l el x hlen hc hx
    cases hp : Selectors.getParentThing l el with
    | none =>
      rw [walk_eq_none hp] at hx
      simp at hx
      rwa [hx]
    | some p =>
      rw [walk_eq_some hp] at hx
      rcases List.mem_append.mp hx with hx | hx
      · have hplt : p.up.length < el.up.length := getParentThing_up_lt l el p hp
        exact ih l p x (by omega) (getParentThing_some_isComment l el p hp) hx
      · simp at hx
        rwa [hx]

theorem walk_head_of_mem : ∀ (n : Nat) (l : Layout) (el x : Elem),
    el.up.length ≤ n → x ∈ walk l el →
    (walk l x).head? = (walk l el).head? := by
  intro n
  induction n with
  | zero =>
    intro l el x hlen hx
    have hup : el.up = [] := by
      cases hu : el.up with
      | nil => rfl
      | cons a b => rw [hu] at hlen; simp at hlen
    have hpar : Selectors.getParentThing l el = none := by
      cases l <;> simp [Selectors.getParentThing, hup, Selectors.goPA, Selectors.goPB]
    rw [walk_eq_none hpar] at hx
    simp at hx
    rw [hx]
  | succ n ih =>
    intro l el x hlen hx
    cases hp : Selectors.getParentThing l el with
    | none =>
      rw [walk_eq_none hp] at hx
      simp at hx
      rw [hx]
    | some p =>
      rw [walk_eq_some hp] at hx
      rw [walk_eq_some hp, List.head?_append_of_ne_nil _ (walk_ne_nil l p)]
      rcases List.mem_append.mp hx with hx | hx
      · have hplt : p.up.length < el.up.length := getParentThing_up_lt l el p hp
        exact ih l p x (by omega) hx
      · simp at hx
        rw [hx, walk_eq_some hp, List.head?_append_of_ne_nil _ (walk_ne_nil l p)]

end Ancestors

/-- **C4**: `findCommonAncestor(a, b)` either returns an element present
in both `computeAncestors(a)` and `computeAncestors(b)` — namely the
first member of `a`'s chain found while scanning `b`'s chain from its
tail toward its head, i.e. the nearest common ancestor — or returns
null, and it returns null exactly when `shareTopLevel(a, b)` is
false. -/
theorem c4_common_ancestor (l : Layout) (a b : Elem) :
    (∀ x, Ancestors.findCommonAncestor l a b = some x →
      x ∈ Ancestors.computeAncestors l a ∧ x ∈ Ancestors.computeAncestors l b) ∧
    (Ancestors.findCommonAncestor l a b = none ↔
      Ancestors.shareTopLevel l a b = false) ∧
    Ancestors.findCommonAncestor l a b =
      (Ancestors.computeAncestors l b).reverse.find?
        (fun x => (Ancestors.computeAncestors l a).contains x) := by
  refine ⟨?_, ⟨?_, ?_⟩, rfl⟩
  · intro x hx
    unfold Ancestors.findCommonAncestor at hx
    have hmem := List.mem_of_find?_eq_some hx
    have hpred := List.find?_some hx
    simp only [List.mem_reverse] at hmem
    exact ⟨by simpa using hpred, hmem⟩
  · intro hnone
    by_contra hshare
    have hshare' : Ancestors.shareTopLevel l a b = true := by
      cases h : Ancestors.shareTopLevel l a b with
      | false => exact absurd h hshare
      | true => rfl
    unfold Ancestors.shareTopLevel at hshare'
    cases hta : Ancestors.getTopLevelAncestor l a with
    | none => rw [hta] at hshare'; simp at hshare'
    | some t =>
      rw [hta] at hshare'
      simp only [decide_eq_true_eq] at hshare'
      have hmema : t ∈ Ancestors.computeAncestors l a := by
        unfold Ancestors.getTopLevelAncestor at hta
        exact List.mem_of_mem_head? (by rw [hta]; rfl)
      have hmemb : t ∈ Ancestors.computeAncestors l b := by
        unfold Ancestors.getTopLevelAncestor at hshare'
        exact List.mem_of_mem_head? (by rw [hshare']; rfl)
      have := List.find?_eq_none.mp hnone t (by simpa using hmemb)
      simp [hmema] at this
  · intro hfalse
    cases hfc : Ancestors.findCommonAncestor l a b with
    | none => rfl
    | some x =>
      exfalso
      unfold Ancestors.findCommonAncestor at hfc
      have hmem := List.mem_of_find?_eq_some hfc
      have hpred := List.find?_some hfc
      simp only [List.mem_reverse] at hmem
      replace hpred : x ∈ Ancestors.computeAncestors l a := by simpa using hpred
      -- a common element forces both chains non-empty with equal heads
      have hcb : Selectors.isCommentThing l b = true := by
        by_contra hb
        have : Ancestors.computeAncestors l b = [] := by
          unfold Ancestors.computeAncestors
          rw [if_neg hb]
        rw [this] at hmem
        simp at hmem
      have hca : Selectors.isCommentThing l a = true := by
        by_contra ha
        have : Ancestors.computeAncestors l a = [] := by
          unfold Ancestors.computeAncestors
          rw [if_neg ha]
        rw [this] at hpred
        simp at hpred
      have hwa : Ancestors.computeAncestors l a = Ancestors.walk l a := by
        unfold Ancestors.computeAncestors
        rw [if_pos hca]
      have hwb : Ancestors.computeAncestors l b = Ancestors.walk l b := by
        unfold Ancestors.computeAncestors
        rw [if_pos hcb]
      have hha : (Ancestors.walk l x).head? = (Ancestors.walk l a).head? :=
        Ancestors.walk_head_of_mem a.up.length l a x le_rfl (by rwa [hwa] at hpred)
      have hhb : (Ancestors.walk l x).head? = (Ancestors.walk l b).head? :=
        Ancestors.walk_head_of_mem b.up.length l b x le_rfl (by rwa [hwb] at hmem)
      obtain ⟨t, ht⟩ : ∃ t, (Ancestors.walk l x).head? = some t := by
        cases hh : (Ancestors.walk l x).head? with
        | none => exact absurd (List.head?_eq_none_iff.mp hh) (Ancestors.walk_ne_nil l x)
        | some t => exact ⟨t, rfl⟩
      have hshare : Ancestors.shareTopLevel l a b = true := by
        unfold Ancestors.shareTopLevel Ancestors.getTopLevelAncestor
        rw [hwa, hwb, ← hha, ← hhb, ht]
        simp
      rw [hshare] at hfalse
      cases hfalse

/-- **C4**, witness: for the nested pair, the nearest common ancestor of
`eKid` and `eTop` is `eTop`, present in both chains; and the null case
matches `shareTopLevel` being false for two unrelated top-levels. -/
theorem c4_witness :
    (Fixtures.eTop ∈ Ancestors.computeAncestors .old Fixtures.eKid ∧
     Fixtures.eTop ∈ Ancestors.computeAncestors .old Fixtures.eTop) ∧
    Ancestors.shareTopLevel .old Fixtures.cmtX Fixtures.cmtY = false := by
  constructor
  · exact (c4_common_ancestor .old Fixtures.eKid Fixtures.eTop).1
      Fixtures.eTop (by decide)
  · exact (c4_common_ancestor .old Fixtures.cmtX Fixtures.cmtY).2.1.mp (by decide)

/-! ## C9 — termination of the walk -/

/-- Auxiliary for C9: with a strictly decreasing measure toward the
root, the loop finishes within the budget and the produced chain
prefix is bounded by the measure. -/
theorem walkSteps_bounded (parent : Nat → Option Nat) (d : Nat → Nat)
    (hd : ∀ x y, parent x = some y → d y < d x) :
    ∀ (fuel x : Nat) (acc : List Nat), d x < fuel →
      ∃ pre, walkSteps parent fuel x acc = some (pre ++ acc) ∧
        pre ≠ [] ∧ pre.length ≤ d x + 1 := by
  intro fuel
  induction fuel with
  | zero => intro x acc h; omega
  | succ f ih =>
    intro x acc h
    cases hp : parent x with
    | none =>
      refine ⟨[x], ?_, by simp, ?_⟩
      · simp [walkSteps, hp]
      · simp only [List.length_cons, List.length_nil]
        omega
    | some p =>
      have hlt : d p < d x := hd x p hp
      obtain ⟨pre, hpre, hne, hlen⟩ := ih p (x :: acc) (by omega)
      refine ⟨pre ++ [x], ?_, by simp, ?_⟩
      · simp only [walkSteps, hp]
        rw [hpre]
        simp
      · simp only [List.length_append, List.length_cons, List.length_nil]
        omega

/-- **C9**: whenever each `getParentThing` step moves strictly toward a
bounded root — witnessed by a measure `d` that decreases across every
parent step, i.e. the parent chain is acyclic — the `computeAncestors`
walk terminates within `d x + 1` iterations (a budget of `d x + 1` loop
steps never runs out), and the produced chain has at most `d x + 1`
entries: the walk is bounded by the node's depth. -/
theorem c9_walk_terminates (parent : Nat → Option Nat) (d : Nat → Nat)
    (hd : ∀ x y, parent x = some y → d y < d x) (x : Nat) :
    ∃ ch, walkSteps parent (d x + 1) x [] = some ch ∧ ch.length ≤ d x + 1 := by
  obtain ⟨pre, hpre, -, hlen⟩ :=
    walkSteps_bounded parent d hd (d x + 1) x [] (by omega)
  exact ⟨pre ++ [], by rw [hpre], by simpa using hlen⟩

/-- **C9**, witness: the walk over the concrete parent map `n+1 ↦ n`
from node 2 with measure `id` finishes with a chain of at most 3
entries. -/
theorem c9_witness :
    ∃ ch, walkSteps Fixtures.parentW 3 2 [] = some ch ∧ ch.length ≤ 3 := by
  have h := c9_walk_terminates Fixtures.parentW id ?_ 2
  · simpa using h
  · intro x y hxy
    unfold Fixtures.parentW at hxy
    by_cases hx : x = 0
    · rw [if_pos hx] at hxy; cases hxy
    · rw [if_neg hx] at hxy
      cases hxy
      simp only [id]
      omega

/-! ## C5 — copy semantics of the chain cache -/

/-- **C5**: starting from the module's initial state (empty heap and
cache), two `computeAncestors` calls on the same comment return two
array references (handles 1 and 2) that are distinct from each other
and from the cached chain array (handle 0), yet read equal
element-by-element; writing an element through either returned
reference changes neither the other returned array nor the cached
array, and a later call — served from the cache — still returns the
original chain. -/
theorem c5_copy_semantics (l : Layout) (el : Elem)
    (hc : Selectors.isCommentThing l el = true)
    (chain : List Elem) (hchain : chain = Ancestors.walk l el)
    (r1 : Ancestors.ArrStore × Ancestors.ChainCache × Nat)
    (hr1 : r1 = Ancestors.computeAncestorsSt l ⟨[]⟩ [] el)
    (r2 : Ancestors.ArrStore × Ancestors.ChainCache × Nat)
    (hr2 : r2 = Ancestors.computeAncestorsSt l r1.1 r1.2.1 el) :
    r1.2.1 = [(el, 0)] ∧
    Ancestors.readArr r2.1 0 = chain ∧
    r1.2.2 = 1 ∧ r2.2.2 = 2 ∧
    Ancestors.readArr r2.1 r1.2.2 = chain ∧
    Ancestors.readArr r2.1 r2.2.2 = chain ∧
    (∀ i v,
      Ancestors.readArr (Ancestors.writeIdx r2.1 r1.2.2 i v) r2.2.2 = chain ∧
      Ancestors.readArr (Ancestors.writeIdx r2.1 r1.2.2 i v) 0 = chain ∧
      Ancestors.readArr (Ancestors.writeIdx r2.1 r2.2.2 i v) r1.2.2 = chain ∧
      Ancestors.readArr (Ancestors.writeIdx r2.1 r2.2.2 i v) 0 = chain ∧
      Ancestors.readArr
        (Ancestors.computeAncestorsSt l (Ancestors.writeIdx r2.1 r1.2.2 i v) r2.2.1 el).1
        (Ancestors.computeAncestorsSt l (Ancestors.writeIdx r2.1 r1.2.2 i v) r2.2.1 el).2.2
        = chain) := by
  have e1 : Ancestors.computeAncestorsSt l ⟨[]⟩ [] el =
      (⟨[chain, chain]⟩, [(el, 0)], 1) := by
    unfold Ancestors.computeAncestorsSt
    simp [hc, List.lookup, Ancestors.alloc, Ancestors.readArr, hchain]
  rw [e1] at hr1
  have e2 : Ancestors.computeAncestorsSt l r1.1 r1.2.1 el =
      (⟨[chain, chain, chain]⟩, [(el, 0)], 2) := by
    rw [hr1]
    unfold Ancestors.computeAncestorsSt
    simp [hc, List.lookup, Ancestors.alloc, Ancestors.readArr]
  rw [e2] at hr2
  subst hr1 hr2
  refine ⟨rfl, rfl, rfl, rfl, rfl, rfl, ?_⟩
  intro i v
  refine ⟨rfl, rfl, rfl, rfl, ?_⟩
  show Ancestors.readArr
      (Ancestors.computeAncestorsSt l (Ancestors.writeIdx ⟨[chain, chain, chain]⟩ 1 i v)
        [(el, 0)] el).1
      (Ancestors.computeAncestorsSt l (Ancestors.writeIdx ⟨[chain, chain, chain]⟩ 1 i v)
        [(el, 0)] el).2.2 = chain
  unfold Ancestors.computeAncestorsSt
  simp [hc, List.lookup, Ancestors.alloc, Ancestors.readArr, Ancestors.writeIdx]

/-- **C5**, witness: evaluated with the top-level old-Reddit comment. -/
theorem c5_witness :
    (Ancestors.computeAncestorsSt .old ⟨[]⟩ [] Fixtures.eTop).2.1 =
      [(Fixtures.eTop, 0)] ∧
    (Ancestors.computeAncestorsSt .old ⟨[]⟩ [] Fixtures.eTop).2.2 = 1 ∧
    (Ancestors.computeAncestorsSt .old
      (Ancestors.computeAncestorsSt .old ⟨[]⟩ [] Fixtures.eTop).1
      (Ancestors.computeAncestorsSt .old ⟨[]⟩ [] Fixtures.eTop).2.1
      Fixtures.eTop).2.2 = 2 := by
  have h := c5_copy_semantics .old Fixtures.eTop (by decide)
    (Ancestors.walk .old Fixtures.eTop) rfl
    (Ancestors.computeAncestorsSt .old ⟨[]⟩ [] Fixtures.eTop) rfl
    (Ancestors.computeAncestorsSt .old
      (Ancestors.computeAncestorsSt .old ⟨[]⟩ [] Fixtures.eTop).1
      (Ancestors.computeAncestorsSt .old ⟨[]⟩ [] Fixtures.eTop).2.1
      Fixtures.eTop) rfl
  exact ⟨h.1, h.2.2.1, h.2.2.2.1⟩

/-! ## C6 — render fingerprint and depth change -/

namespace StickyUI

theorem renderKey_ne_depth (l : Layout) (compact : Bool) (m : OpMeta)
    (c0 c1 c2 : Elem) (rest : List Elem) :
    renderKey l (c0 :: c1 :: c2 :: rest) 2 compact (some m) ≠
      renderKey l (c0 :: c1 :: c2 :: rest) 3 compact (some m) := by
  intro heq
  have h2 : (c0 :: c1 :: c2 :: rest).take 2 = [c0, c1] := rfl
  have h3 : (c0 :: c1 :: c2 :: rest).take 3 = [c0, c1, c2] := rfl
  unfold renderKey at heq
  rw [h2, h3] at heq
  simp only [List.map_cons, List.map_nil] at heq
  have i2 : String.intercalate ","
      [(Selectors.getCommentId l c0).getD "", (Selectors.getCommentId l c1).getD ""] =
      (Selectors.getCommentId l c0).getD "" ++ "," ++ (Selectors.getCommentId l c1).getD "" := rfl
  have i3 : String.intercalate ","
      [(Selectors.getCommentId l c0).getD "", (Selectors.getCommentId l c1).getD "",
       (Selectors.getCommentId l c2).getD ""] =
      (Selectors.getCommentId l c0).getD "" ++ "," ++ (Selectors.getCommentId l c1).getD ""
        ++ "," ++ (Selectors.getCommentId l c2).getD "" := rfl
  rw [i2, i3] at heq
  have hlen := congrArg String.length heq
  simp only [String.length_append] at hlen
  have hcomma : String.length "," = 1 := rfl
  rw [hcomma] at hlen
  omega

end StickyUI

/-- **C6**: (a) when `render` is called with arguments whose fingerprint
equals the previous render's fingerprint and the header is visible,
the result is exactly an active-highlight update — in particular the
row DOM is untouched; (b) after rendering a chain of at least three
ancestors at depth 3 from the initialized state, re-rendering the same
chain at depth 2 rebuilds the header with exactly the origin row plus
2 ancestor rows. -/
theorem c6_render_fingerprint :
    (∀ (l : Layout) (inDoc : Elem → Bool) (st : StickyUI.RenderSt)
       (chain : List Elem) (depth : Nat) (compact : Bool)
       (active : Option Elem) (opMeta : Option StickyUI.OpMeta),
      st.isActive = true →
      StickyUI.renderKey l chain depth compact opMeta = String.join st.chainKeys →
      st.visible = true →
      StickyUI.render l inDoc st chain depth compact active opMeta =
        StickyUI.updateActiveHighlight inDoc st active ∧
      (StickyUI.render l inDoc st chain depth compact active opMeta).rows = st.rows) ∧
    (∀ (l : Layout) (inDoc : Elem → Bool) (compact : Bool)
       (active active2 : Option Elem) (m : StickyUI.OpMeta)
       (c0 c1 c2 : Elem) (rest : List Elem),
      (StickyUI.render l inDoc
        (StickyUI.render l inDoc StickyUI.initialRenderSt
          (c0 :: c1 :: c2 :: rest) 3 compact active (some m))
        (c0 :: c1 :: c2 :: rest) 2 compact active2 (some m)).rows =
      [StickyUI.Row.op m compact,
       StickyUI.Row.comment c0 1 compact,
       StickyUI.Row.comment c1 2 compact]) := by
  constructor
  · intro l inDoc st chain depth compact active opMeta hact hkey hvis
    have hfast : StickyUI.render l inDoc st chain depth compact active opMeta =
        StickyUI.updateActiveHighlight inDoc st active := by
      unfold StickyUI.render
      rw [hact]
      simp only [Bool.not_true, Bool.false_eq_true, if_false]
      rw [if_pos (by simp [hkey, hvis])]
    exact ⟨hfast, by rw [hfast]; rfl⟩
  · intro l inDoc compact active active2 m c0 c1 c2 rest
    set st1 := StickyUI.render l inDoc StickyUI.initialRenderSt
      (c0 :: c1 :: c2 :: rest) 3 compact active (some m) with hst1
    have h1a : st1.isActive = true := by
      rw [hst1]
      unfold StickyUI.render
      simp [StickyUI.initialRenderSt, StickyUI.updateActiveHighlight]
    have h1v : st1.visible = true := by
      rw [hst1]
      unfold StickyUI.render
      simp [StickyUI.initialRenderSt, StickyUI.updateActiveHighlight]
    have h1k : st1.chainKeys =
        [StickyUI.renderKey l (c0 :: c1 :: c2 :: rest) 3 compact (some m)] := by
      rw [hst1]
      unfold StickyUI.render
      simp [StickyUI.initialRenderSt, StickyUI.updateActiveHighlight]
    have hne := StickyUI.renderKey_ne_depth l compact m c0 c1 c2 rest
    unfold StickyUI.render
    rw [h1a]
    simp only [Bool.not_true, Bool.false_eq_true, if_false]
    rw [if_neg (by
      rw [h1k]
      simp only [String.join, List.foldl]
      simp [hne])]
    simp [StickyUI.updateActiveHighlight]
    rfl

/-- **C6**, witness: with the three-element fixture chain, rendering the
same triple twice performs only the highlight update, and dropping the
depth from 3 to 2 yields the origin row plus exactly two ancestor
rows. -/
theorem c6_witness :
    (StickyUI.render .old (fun _ => true)
      { StickyUI.initialRenderSt with
          visible := true,
          chainKeys := [StickyUI.renderKey .old [Fixtures.rc0, Fixtures.rc1] 2 true
            (some Fixtures.opM)] }
      [Fixtures.rc0, Fixtures.rc1] 2 true none (some Fixtures.opM) =
      StickyUI.updateActiveHighlight (fun _ => true)
        { StickyUI.initialRenderSt with
            visible := true,
            chainKeys := [StickyUI.renderKey .old [Fixtures.rc0, Fixtures.rc1] 2 true
              (some Fixtures.opM)] } none) ∧
    ((StickyUI.render .old (fun _ => true)
        (StickyUI.render .old (fun _ => true) StickyUI.initialRenderSt
          [Fixtures.rc0, Fixtures.rc1, Fixtures.rc2] 3 true none (some Fixtures.opM))
        [Fixtures.rc0, Fixtures.rc1, Fixtures.rc2] 2 true none (some Fixtures.opM)).rows =
      [StickyUI.Row.op Fixtures.opM true,
       StickyUI.Row.comment Fixtures.rc0 1 true,
       StickyUI.Row.comment Fixtures.rc1 2 true]) := by
  constructor
  · exact ((c6_render_fingerprint.1 .old (fun _ => true) _
      [Fixtures.rc0, Fixtures.rc1] 2 true none (some Fixtures.opM))
      rfl (by rfl) rfl).1
  · exact c6_render_fingerprint.2 .old (fun _ => true) true none none
      Fixtures.opM Fixtures.rc0 Fixtures.rc1 Fixtures.rc2 []

/-! ## C7 — at most one anchor marker -/

namespace StickyUI

theorem marked_shape (m : List Elem) (cur : Option Elem) (hnd : m.Nodup)
    (hall : ∀ e ∈ m, cur = some e) :
    m = [] ∨ ∃ x, m = [x] ∧ cur = some x := by
  cases m with
  | nil => exact Or.inl rfl
  | cons x rest =>
    right
    have hx : cur = some x := hall x (by simp)
    refine ⟨x, ?_, hx⟩
    cases rest with
    | nil => rfl
    | cons y r2 =>
      exfalso
      have hy : cur = some y := hall y (by simp)
      rw [hx] at hy
      cases hy
      simp at hnd

theorem markerInv_shape (st : RenderSt) (h : markerInv st) :
    st.marked = [] ∨ ∃ x, st.marked = [x] ∧ st.curActive = some x :=
  marked_shape st.marked st.curActive h.1 h.2

theorem markerInv_length (st : RenderSt) (h : markerInv st) :
    st.marked.length ≤ 1 := by
  rcases markerInv_shape st h with hm | ⟨x, hm, -⟩ <;> rw [hm] <;> simp

theorem removeStep_inv (cur newA : Option Elem) (marked : List Elem)
    (hnd : marked.Nodup) (hall : ∀ e ∈ marked, cur = some e) :
    (match cur with
      | some c => if some c ≠ newA then marked.erase c else marked
      | none => marked).Nodup ∧
    ∀ e ∈ (match cur with
      | some c => if some c ≠ newA then marked.erase c else marked
      | none => marked), newA = some e := by
  cases cur with
  | none =>
    refine ⟨hnd, ?_⟩
    intro e he
    exact absurd (hall e he) (by simp)
  | some c =>
    show (if some c ≠ newA then marked.erase c else marked).Nodup ∧
      ∀ e ∈ (if some c ≠ newA then marked.erase c else marked), newA = some e
    by_cases hne : some c ≠ newA
    · rw [if_pos hne]
      refine ⟨hnd.erase c, ?_⟩
      intro e he
      have := (List.Nodup.mem_erase_iff hnd).mp he
      have hec : e = c := by
        have := hall e this.2
        cases this
        rfl
      exact absurd hec this.1
    · rw [if_neg hne]
      simp only [ne_eq, not_not] at hne
      refine ⟨hnd, ?_⟩
      intro e he
      rw [← hne]
      exact hall e he

theorem addStep_inv (inDoc : Elem → Bool) (newA : Option Elem) (m1 : List Elem)
    (hnd : m1.Nodup) (hall : ∀ e ∈ m1, newA = some e) :
    (match newA with
      | some n => if inDoc n then (if n ∈ m1 then m1 else m1 ++ [n]) else m1
      | none => m1).Nodup ∧
    ∀ e ∈ (match newA with
      | some n => if inDoc n then (if n ∈ m1 then m1 else m1 ++ [n]) else m1
      | none => m1), newA = some e := by
  cases newA with
  | none => exact ⟨hnd, hall⟩
  | some n =>
    show (if inDoc n then (if n ∈ m1 then m1 else m1 ++ [n]) else m1).Nodup ∧
      ∀ e ∈ (if inDoc n then (if n ∈ m1 then m1 else m1 ++ [n]) else m1), some n = some e
    by_cases hdoc : inDoc n
    · rw [if_pos hdoc]
      by_cases hmem : n ∈ m1
      · rw [if_pos hmem]
        exact ⟨hnd, hall⟩
      · rw [if_neg hmem]
        constructor
        · simp [List.nodup_append, hnd, hmem]
        · intro e he
          rcases List.mem_append.mp he with he | he
          · exact hall e he
          · simp at he
            rw [he]
    · rw [if_neg hdoc]
      exact ⟨hnd, hall⟩

theorem updateActiveHighlight_inv (inDoc : Elem → Bool) (st : RenderSt)
    (newA : Option Elem) (h : markerInv st) :
    markerInv (updateActiveHighlight inDoc st newA) := by
  have h1 := removeStep_inv st.curActive newA st.marked h.1 h.2
  have h2 := addStep_inv inDoc newA _ h1.1 h1.2
  exact ⟨h2.1, h2.2⟩

theorem markerInv_congr (s t : RenderSt) (hm : s.marked = t.marked)
    (hc : s.curActive = t.curActive) (h : markerInv s) : markerInv t := by
  obtain ⟨h1, h2⟩ := h
  rw [hm] at h1
  refine ⟨h1, ?_⟩
  intro e he
  rw [← hc]
  exact h2 e (by rwa [hm])

theorem hide_inv (inDoc : Elem → Bool) (st : RenderSt)
    (active : Option Elem) (h : markerInv st) :
    markerInv (hide inDoc st active) := by
  unfold hide
  split
  · exact h
  · exact updateActiveHighlight_inv inDoc _ active
      (markerInv_congr st _ rfl rfl h)

theorem render_inv (l : Layout) (inDoc : Elem → Bool) (st : RenderSt)
    (chain : List Elem) (depth : Nat) (compact : Bool)
    (active : Option Elem) (opMeta : Option OpMeta) (h : markerInv st) :
    markerInv (render l inDoc st chain depth compact active opMeta) := by
  unfold render
  cases hact : st.isActive with
  | false => simpa using h
  | true =>
    simp only [hact, Bool.not_true, Bool.false_eq_true, if_false]
    by_cases hkey : renderKey l chain depth compact opMeta = String.join st.chainKeys
    · by_cases hvis : st.visible = true
      · rw [if_pos (by simp [hkey, hvis])]
        exact updateActiveHighlight_inv inDoc st active h
      · rw [if_neg (by
          intro hcon
          rw [Bool.and_eq_true] at hcon
          exact hvis hcon.2)]
        by_cases hop : (opMeta = none ∧ (chain.take depth).isEmpty = true)
        · rw [if_pos (by simp [hop.1, hop.2])]
          exact hide_inv inDoc _ none (markerInv_congr st _ rfl rfl h)
        · rw [if_neg (by
            intro hcon
            simp only [Bool.and_eq_true, decide_eq_true_eq] at hcon
            exact hop hcon)]
          exact markerInv_congr _ _ rfl rfl
            (updateActiveHighlight_inv inDoc _ active
              (markerInv_congr st _ rfl rfl h))
    · rw [if_neg (by simp [hkey])]
      by_cases hop : (opMeta = none ∧ (chain.take depth).isEmpty = true)
      · rw [if_pos (by simp [hop.1, hop.2])]
        exact hide_inv inDoc _ none (markerInv_congr st _ rfl rfl h)
      · rw [if_neg (by
          intro hcon
          simp only [Bool.and_eq_true, decide_eq_true_eq] at hcon
          exact hop hcon)]
        exact markerInv_congr _ _ rfl rfl
          (updateActiveHighlight_inv inDoc _ active
            (markerInv_congr st _ rfl rfl h))

end StickyUI

/-- **C7**: the at-most-one-marker invariant — no duplicate markers and
every marker sits on the current active element — is preserved by the
highlight update, by `render` and by `hide` (the marker is moved or
removed, never duplicated, and never attached twice to an element
already carrying it), and under it at most one page element carries
the anchor marker at any time. -/
theorem c7_marker_uniqueness :
    (∀ (inDoc : Elem → Bool) (st : StickyUI.RenderSt) (newA : Option Elem),
      StickyUI.markerInv st →
      StickyUI.markerInv (StickyUI.updateActiveHighlight inDoc st newA) ∧
      (StickyUI.updateActiveHighlight inDoc st newA).marked.length ≤ 1) ∧
    (∀ (l : Layout) (inDoc : Elem → Bool) (st : StickyUI.RenderSt)
       (chain : List Elem) (depth : Nat) (compact : Bool)
       (active : Option Elem) (opMeta : Option StickyUI.OpMeta),
      StickyUI.markerInv st →
      StickyUI.markerInv (StickyUI.render l inDoc st chain depth compact active opMeta) ∧
      (StickyUI.render l inDoc st chain depth compact active opMeta).marked.length ≤ 1) ∧
    (∀ (inDoc : Elem → Bool) (st : StickyUI.RenderSt) (active : Option Elem),
      StickyUI.markerInv st →
      StickyUI.markerInv (StickyUI.hide inDoc st active) ∧
      (StickyUI.hide inDoc st active).marked.length ≤ 1) := by
  refine ⟨?_, ?_, ?_⟩
  · intro inDoc st newA h
    have hinv := StickyUI.updateActiveHighlight_inv inDoc st newA h
    exact ⟨hinv, StickyUI.markerInv_length _ hinv⟩
  · intro l inDoc st chain depth compact active opMeta h
    have hinv := StickyUI.render_inv l inDoc st chain depth compact active opMeta h
    exact ⟨hinv, StickyUI.markerInv_length _ hinv⟩
  · intro inDoc st active h
    have hinv := StickyUI.hide_inv inDoc st active h
    exact ⟨hinv, StickyUI.markerInv_length _ hinv⟩

/-- **C7**, witness: from the initialized state (no marker), anchoring
`cmtX` yields a state satisfying the invariant with at most one
marker. -/
theorem c7_witness :
    StickyUI.markerInv
      (StickyUI.updateActiveHighlight (fun _ => true) StickyUI.initialRenderSt
        (some Fixtures.cmtX)) ∧
    (StickyUI.updateActiveHighlight (fun _ => true) StickyUI.initialRenderSt
        (some Fixtures.cmtX)).marked.length ≤ 1 :=
  c7_marker_uniqueness.1 (fun _ => true) StickyUI.initialRenderSt (some Fixtures.cmtX)
    ⟨List.nodup_nil, by intro e he; simp [StickyUI.initialRenderSt] at he⟩
